import Mathlib

/-!
Verification development for the pharmaboost SEO content pipeline.

Shallow embedding of the repository's core logic:
  * `app/use_cases.py`   — JSON extraction, retry executor, HTML unescape
                            loop, success memory, quality-loop orchestrator
  * `app/strategy_manager.py` — strategy ledger append / ranking query
  * `app/pharma_seo_optimizer.py` — finalize-for-VTEX HTML step
  * `app/google_search.py` — search backend degradation behaviour

Python dicts holding JSON data are modelled by the inductive `Json`
(numbers restricted to integers); file-backed state (memory file, ledger
file) is modelled by explicit state passing of the in-memory list; the
external Gemini / Google services are modelled as oracle parameters.
-/

/-! ## JSON values (model of the Python dicts handled by `json.loads`) -/

inductive Json where
  | null
  | bool (b : Bool)
  | num (n : Int)
  | str (s : String)
  | arr (elems : List Json)
  | obj (fields : List (String × Json))
deriving BEq, Repr

/-- JSON whitespace accepted by `json.loads` between tokens. -/
def isJsonWs (c : Char) : Bool :=
  c = ' ' || c = '\t' || c = '\n' || c = '\r'

/-- Hexadecimal digit value, for `\uXXXX` escapes. -/
def hexVal (c : Char) : Option Nat :=
  if '0' ≤ c ∧ c ≤ '9' then some (c.toNat - '0'.toNat)
  else if 'a' ≤ c ∧ c ≤ 'f' then some (c.toNat - 'a'.toNat + 10)
  else if 'A' ≤ c ∧ c ≤ 'F' then some (c.toNat - 'A'.toNat + 10)
  else none

/-- Body of a JSON string literal (the opening quote already consumed).
Mirrors the strict mode of `json.loads`: unescaped control characters
(below 0x20) are rejected; escapes `\" \\ \/ \b \f \n \r \t \uXXXX`
are decoded. Returns the decoded contents and the rest of the input. -/
def parseStrBody : List Char → Option (List Char × List Char)
  | [] => none
  | c :: rest =>
    if c = '"' then some ([], rest)
    else if c = '\\' then
      match rest with
      | [] => none
      | e :: rest2 =>
        if e = '"' ∨ e = '\\' ∨ e = '/' then
          (parseStrBody rest2).map (fun p => (e :: p.1, p.2))
        else if e = 'b' then
          (parseStrBody rest2).map (fun p => ('\x08' :: p.1, p.2))
        else if e = 'f' then
          (parseStrBody rest2).map (fun p => ('\x0c' :: p.1, p.2))
        else if e = 'n' then
          (parseStrBody rest2).map (fun p => ('\n' :: p.1, p.2))
        else if e = 'r' then
          (parseStrBody rest2).map (fun p => ('\r' :: p.1, p.2))
        else if e = 't' then
          (parseStrBody rest2).map (fun p => ('\t' :: p.1, p.2))
        else if e = 'u' then
          match rest2 with
          | h1 :: h2 :: h3 :: h4 :: rest3 =>
            match hexVal h1, hexVal h2, hexVal h3, hexVal h4 with
            | some a, some b, some g, some d =>
              (parseStrBody rest3).map
                (fun p => (Char.ofNat (((a * 16 + b) * 16 + g) * 16 + d) :: p.1, p.2))
            | _, _, _, _ => none
          | _ => none
        else none
    else if c.toNat < 32 then none
    else (parseStrBody rest).map (fun p => (c :: p.1, p.2))

/-- Integer literal: optional minus sign followed by at least one digit
(the numeric fragment of the JSON grammar covered by this model). -/
def parseIntLit (l : List Char) : Option (Int × List Char) :=
  let core (m : List Char) : Option (Nat × List Char) :=
    let digits := m.takeWhile (fun c => c.isDigit)
    if digits = [] then none
    else some (digits.foldl (fun acc c => acc * 10 + (c.toNat - '0'.toNat)) 0,
               m.drop digits.length)
  match l with
  | '-' :: rest => (core rest).map (fun p => (-(p.1 : Int), p.2))
  | _ => (core l).map (fun p => ((p.1 : Int), p.2))

mutual

/-- JSON value parser (fuel-indexed recursive descent, mirrors `json.loads`). -/
def parseVal : Nat → List Char → Option (Json × List Char)
  | 0, _ => none
  | fuel + 1, l =>
    match l.dropWhile isJsonWs with
    | [] => none
    | c :: rest =>
      if c = '"' then
        (parseStrBody rest).map (fun p => (Json.str (String.mk p.1), p.2))
      else if c = '{' then
        match rest.dropWhile isJsonWs with
        | '}' :: rest2 => some (Json.obj [], rest2)
        | _ => parseMembers fuel rest []
      else if c = '[' then
        match rest.dropWhile isJsonWs with
        | ']' :: rest2 => some (Json.arr [], rest2)
        | _ => parseElems fuel rest []
      else if c = 't' then
        match rest with
        | 'r' :: 'u' :: 'e' :: rest2 => some (Json.bool true, rest2)
        | _ => none
      else if c = 'f' then
        match rest with
        | 'a' :: 'l' :: 's' :: 'e' :: rest2 => some (Json.bool false, rest2)
        | _ => none
      else if c = 'n' then
        match rest with
        | 'u' :: 'l' :: 'l' :: rest2 => some (Json.null, rest2)
        | _ => none
      else
        (parseIntLit (c :: rest)).map (fun p => (Json.num p.1, p.2))

/-- Members of a JSON object after the opening brace (at least one pair). -/
def parseMembers : Nat → List Char → List (String × Json) →
    Option (Json × List Char)
  | 0, _, _ => none
  | fuel + 1, l, acc =>
    match l.dropWhile isJsonWs with
    | '"' :: rest =>
      match parseStrBody rest with
      | none => none
      | some (key, r1) =>
        match r1.dropWhile isJsonWs with
        | ':' :: r2 =>
          match parseVal fuel r2 with
          | none => none
          | some (v, r3) =>
            match r3.dropWhile isJsonWs with
            | ',' :: r4 => parseMembers fuel r4 (acc ++ [(String.mk key, v)])
            | '}' :: r4 => some (Json.obj (acc ++ [(String.mk key, v)]), r4)
            | _ => none
        | _ => none
    | _ => none

/-- Elements of a JSON array after the opening bracket (at least one). -/
def parseElems : Nat → List Char → List Json → Option (Json × List Char)
  | 0, _, _ => none
  | fuel + 1, l, acc =>
    match parseVal fuel l with
    | none => none
    | some (v, r1) =>
      match r1.dropWhile isJsonWs with
      | ',' :: r2 => parseElems fuel r2 (acc ++ [v])
      | ']' :: r2 => some (Json.arr (acc ++ [v]), r2)
      | _ => none

end

/-- `json.loads` on a character list: one value, then only whitespace. -/
def parseJsonChars (l : List Char) : Option Json :=
  match parseVal (l.length + 1) l with
  | some (v, rest) => if rest.dropWhile isJsonWs = [] then some v else none
  | none => none

/-- `json.loads` on a string. -/
def parseJson (s : String) : Option Json :=
  parseJsonChars s.toList

/-! ## `_extract_json_from_string` (use_cases.py lines 110-130) -/

/-- ASCII fragment of the `\s` class used by Python's `re` on `str`. -/
def isReSpace (c : Char) : Bool :=
  c = ' ' || c = '\t' || c = '\n' || c = '\r' || c = '\x0c' || c = '\x0b'

/-- After a candidate closing brace: can the regex complete with
whitespace then three backticks (the lazy group's continuation)? -/
def closeOk (rest : List Char) : Bool :=
  (rest.dropWhile isReSpace).take 3 = ['`', '`', '`']

/-- Lazy scan of `[\s\S]*?\}` followed by `` \s*``` ``: stops at the first
closing brace whose continuation matches, returning the group so far. -/
def lazyClose : List Char → List Char → Option (List Char)
  | _, [] => none
  | acc, c :: rest =>
    if c = '}' && closeOk rest then some ((c :: acc).reverse)
    else lazyClose (c :: acc) rest

/-- Literal head of the fence pattern. -/
def fenceHead : List Char := "```json".toList

/-- Attempt the fence pattern right after a matched "```json":
greedy `\s*`, a literal opening brace, then the lazy closing scan. -/
def tryFence (after : List Char) : Option (List Char) :=
  match after.dropWhile isReSpace with
  | '{' :: rest => lazyClose ['{'] rest
  | _ => none

/-- `re.search` of the fence pattern: leftmost occurrence of "```json"
from which the rest of the pattern completes; yields group(1). -/
def fenceSearch : List Char → Option (List Char)
  | [] => none
  | c :: rest =>
    if fenceHead.isPrefixOf (c :: rest) then
      match tryFence ((c :: rest).drop 7) with
      | some g => some g
      | none => fenceSearch rest
    else fenceSearch rest

/-- Substring from the first `{` to the last `}` (both inclusive),
required to be a non-degenerate span — mirrors find/rfind at lines 118-123. -/
def braceSlice (l : List Char) : Option (List Char) :=
  let pre := l.takeWhile (fun c => c ≠ '{')
  let sufRev := l.reverse.takeWhile (fun c => c ≠ '}')
  if pre.length = l.length ∨ sufRev.length = l.length then none
  else
    let startIdx := pre.length
    let endIdx := l.length - 1 - sufRev.length
    if startIdx < endIdx then some ((l.drop startIdx).take (endIdx - startIdx + 1))
    else none

/-- Control-character cleanup at line 126: keep a character iff its code
point exceeds 31 or it is newline, tab or carriage return. -/
def cleanChars (l : List Char) : List Char :=
  l.filter (fun c => 31 < c.toNat || c = '\n' || c = '\t' || c = '\r')

/-- `_extract_json_from_string` (use_cases.py lines 110-130). -/
def extractJson (text : String) : Option Json :=
  if text = "" then none
  else
    let l := text.toList
    let jsonChars : Option (List Char) :=
      match fenceSearch l with
      | some g => some g
      | none => braceSlice l
    match jsonChars with
    | none => none
    | some js => parseJsonChars (cleanChars js)

/-! ## `_execute_prompt_with_backoff` (use_cases.py lines 132-159)

The Gemini call is modelled as an oracle mapping the attempt index to a
response outcome: a response object (whose `.text` may be missing or
empty), a transient error (`DeadlineExceeded` / `ResourceExhausted` /
`ServiceUnavailable`), or any other exception (fatal). -/

inductive GenOutcome where
  | ok (text : Option String)
  | transient
  | fatal
deriving DecidableEq, Repr

/-- Outcomes consumed by the retry loop without returning: a transient
exception, or a response with missing/empty text (which line 150 turns
into a raised `ServiceUnavailable`, caught by the transient handler). -/
def retryable : GenOutcome → Bool
  | .ok none => true
  | .ok (some t) => t = ""
  | .transient => true
  | .fatal => false

/-- The `for attempt in range(max_retries)` loop, embedded with `fuel`
counting the iterations left (`fuel = maxRetries - attempt`; `fuel = 0`
is the loop running off the end at line 158). Returns the result
(`none` models returning Python `None`; no exception ever escapes) and
the number of attempts actually performed. `wait` threads the backoff
delay `wait_time = min(wait_time * 2, 60)`, starting from 2. -/
def backoffGo (oracle : Nat → GenOutcome) : Nat → Nat → Nat → Option String × Nat
  | 0, attempt, _ => (none, attempt)
  | fuel + 1, attempt, wait =>
    match oracle attempt with
    | .ok (some t) =>
      if t = "" then backoffGo oracle fuel (attempt + 1) (min (wait * 2) 60)
      else (some t, attempt + 1)
    | .ok none => backoffGo oracle fuel (attempt + 1) (min (wait * 2) 60)
    | .transient => backoffGo oracle fuel (attempt + 1) (min (wait * 2) 60)
    | .fatal => (none, attempt + 1)

/-- `_execute_prompt_with_backoff` for a given oracle and retry budget. -/
def executeWithBackoff (oracle : Nat → GenOutcome) (maxRetries : Nat) :
    Option String × Nat :=
  backoffGo oracle maxRetries 0 2

/-! ## `_save_success_to_memory` (use_cases.py lines 39-65)

The JSON memory file is modelled by explicit state passing of the
in-memory entry list. -/

structure MemoryEntry where
  product : String
  originalSnippet : String
  approvedSnippet : String
deriving DecidableEq, Repr

/-- The cap at lines 61-62: if more than 3 entries, keep the last 3
(`memory = memory[-3:]`). -/
def trimMemory (m : List MemoryEntry) : List MemoryEntry :=
  if 3 < m.length then m.drop (m.length - 3) else m

/-- One call to `_save_success_to_memory`: skip if the product is
already present (lines 48-49), else append and trim. -/
def saveSuccess (memory : List MemoryEntry) (e : MemoryEntry) :
    List MemoryEntry :=
  if memory.any (fun item => item.product = e.product) then memory
  else trimMemory (memory ++ [e])

/-- Memory contents after a sequence of calls starting from an empty file. -/
def memoryAfter (es : List MemoryEntry) : List MemoryEntry :=
  es.foldl saveSuccess []

/-- The insertion sequence: the entries actually appended (duplicates
of a product currently in memory are skipped, as in the source). -/
def insertedSeq (memory : List MemoryEntry) : List MemoryEntry → List MemoryEntry
  | [] => []
  | e :: es =>
    if memory.any (fun item => item.product = e.product) then insertedSeq memory es
    else e :: insertedSeq (trimMemory (memory ++ [e])) es

/-- Suffix of length at most 3. -/
def lastThree (l : List MemoryEntry) : List MemoryEntry :=
  l.drop (l.length - 3)

/-! ## Strategy ledger (strategy_manager.py)

The ledger file is modelled by explicit state passing. The strategy
description comes from `_derive_strategy_from_feedback`, whose use of
`set.pop()` is nondeterministic, and the timestamp from the clock; both
are therefore taken as parameters of the append operation. The analyses
are represented by their `total_score` values (`.get("total_score", 0)`). -/

structure StrategyRecord where
  estrategiaAplicada : String
  tipoDeProduto : String
  textoOriginalScore : Int
  novoTextoScore : Int
  melhoraScore : Int
  timestamp : String
deriving DecidableEq, Repr

/-- `log_strategy` (lines 51-76): no-op when the score delta is zero,
otherwise append one record to the ledger. -/
def logStrategy (ledger : List StrategyRecord) (scoreBefore scoreAfter : Int)
    (productType description timestamp : String) : List StrategyRecord :=
  if scoreAfter - scoreBefore = 0 then ledger
  else
    ledger ++ [{ estrategiaAplicada := description,
                 tipoDeProduto := productType,
                 textoOriginalScore := scoreBefore,
                 novoTextoScore := scoreAfter,
                 melhoraScore := scoreAfter - scoreBefore,
                 timestamp := timestamp }]

/-- Stable descending insertion by `melhora_score`: a new element goes
after every existing element with a strictly larger delta and before the
rest, which is exactly the placement Python's stable
`sorted(key=..., reverse=True)` gives elements taken left to right. -/
def insertDesc (r : StrategyRecord) : List StrategyRecord → List StrategyRecord
  | [] => [r]
  | y :: ys =>
    if r.melhoraScore < y.melhoraScore then y :: insertDesc r ys
    else r :: y :: ys

/-- `sorted(relevant_strategies, key=lambda x: x['melhora_score'], reverse=True)`
(line 93): stable sort, descending by score delta. -/
def sortDesc : List StrategyRecord → List StrategyRecord
  | [] => []
  | x :: xs => insertDesc x (sortDesc xs)

/-- The records considered by `get_strategies` (lines 89-91): those of
the requested product type, falling back to the whole ledger when none
match. -/
def relevantStrategies (ledger : List StrategyRecord) (productType : String) :
    List StrategyRecord :=
  let relevant := ledger.filter (fun s => s.tipoDeProduto = productType)
  if relevant = [] then ledger else relevant

/-- The ranked list built at line 93 of `get_strategies`. -/
def sortedStrategies (ledger : List StrategyRecord) (productType : String) :
    List StrategyRecord :=
  sortDesc (relevantStrategies ledger productType)

/-- `get_strategies` (lines 78-102): the pair of formatted
best-strategy / failed-strategy strings. -/
def getStrategies (ledger : List StrategyRecord) (productType : String)
    (topN : Nat := 3) : String × String :=
  let defaultSuccess := "Nenhuma estratégia de sucesso registrada. Usando conhecimento geral."
  let defaultFail := "Nenhuma estratégia de falha registrada."
  if ledger = [] then (defaultSuccess, defaultFail)
  else
    let sorted := sortedStrategies ledger productType
    let successful := (sorted.take topN).filter (fun s => 0 < s.melhoraScore)
    let successfulStr := String.intercalate "\n"
      (successful.map (fun s =>
        "- " ++ s.estrategiaAplicada ++ " (Melhora de Score: +" ++
        toString s.melhoraScore ++ ")"))
    let failed := (sorted.filter (fun s => s.melhoraScore ≤ 0)).take topN
    let failedStr := String.intercalate "\n"
      (failed.map (fun s =>
        "- " ++ s.estrategiaAplicada ++ " (Piora de Score: " ++
        toString s.melhoraScore ++ ")"))
    ((if successfulStr = "" then defaultSuccess else successfulStr),
     (if failedStr = "" then defaultFail else failedStr))

/-! ## `GoogleSearch.search` (google_search.py lines 15-76)

The CSE backend is modelled as an oracle per query; building the service
object (line 35) may itself fail, and a non-`HttpError` exception inside
the loop escapes to the outer handler (line 72), which replaces the
whole result list. Result payloads are opaque strings. -/

structure SearchResult where
  query : String
  items : List String
  relatedQuestions : List String
  relatedSearches : List String
  error : Option String
deriving DecidableEq, Repr

inductive QueryOutcome where
  | ok (items : List String) (relatedSearches : List String)
  | httpError (msg : String)
  | unexpected (msg : String)
deriving DecidableEq, Repr

/-- Truthiness of an optional credential string: Python's
`not GoogleSearch.API_KEY` is true for both a missing and an empty value. -/
def credMissing : Option String → Bool
  | none => true
  | some s => s = ""

/-- Empty-result structure returned per query when credentials are
missing (line 29; note it carries no `error` key). -/
def emptyResult (q : String) : SearchResult :=
  { query := q, items := [], relatedQuestions := [], relatedSearches := [],
    error := none }

/-- The batch-wide degradation structure of lines 73-74. -/
def generalFailure (q : String) : SearchResult :=
  { query := q, items := [], relatedQuestions := [], relatedSearches := [],
    error := some "Falha geral no serviço de busca." }

/-- The per-query loop of lines 36-70, accumulating `results`. A
non-`HttpError` exception aborts to the outer handler, discarding the
accumulator and rebuilding a full-length degradation list. -/
def searchGo (oracle : String → QueryOutcome) (allQueries : List String) :
    List String → List SearchResult → List SearchResult
  | [], acc => acc.reverse
  | q :: rest, acc =>
    match oracle q with
    | .ok items rel =>
      searchGo oracle allQueries rest
        ({ query := q, items := items, relatedQuestions := rel,
           relatedSearches := rel, error := none } :: acc)
    | .httpError e =>
      searchGo oracle allQueries rest
        ({ query := q, items := [], relatedQuestions := [],
           relatedSearches := [], error := some e } :: acc)
    | .unexpected _ => allQueries.map generalFailure

/-- `GoogleSearch.search`. `buildOk = false` models `build(...)` raising. -/
def googleSearch (apiKey cseId : Option String) (buildOk : Bool)
    (oracle : String → QueryOutcome) (queries : List String) :
    List SearchResult :=
  if credMissing apiKey || credMissing cseId then queries.map emptyResult
  else if buildOk then searchGo oracle queries queries []
  else queries.map generalFailure

/-- Does this outcome model a non-`HttpError` exception (one that
escapes the per-query handler to the outer one)? -/
def isUnexpected : QueryOutcome → Bool
  | .unexpected _ => true
  | _ => false

/-- The result the loop produces for one query when no unexpected
exception interrupts the batch. -/
def perQueryResult (oracle : String → QueryOutcome) (q : String) : SearchResult :=
  match oracle q with
  | .ok items rel =>
    { query := q, items := items, relatedQuestions := rel,
      relatedSearches := rel, error := none }
  | .httpError e =>
    { query := q, items := [], relatedQuestions := [],
      relatedSearches := [], error := some e }
  | .unexpected _ => generalFailure q

/-! ## `_finalize_for_vtex` (pharma_seo_optimizer.py lines 126-145)

BeautifulSoup is external; it is modelled by a small HTML node tree
with a fuel-based tag tokenizer/builder mirroring `html.parser`'s
element soup, enough to express the empty-`<p>`/empty-list decompose
steps, the appended final `<p>` tag and serialization. A Python value
that may not be a string is modelled by `PyInput`. -/

inductive PyInput where
  | str (s : String)
  | notStr
deriving DecidableEq, Repr

inductive HtmlNode where
  | text (s : String)
  | elem (name : String) (children : List HtmlNode)
deriving BEq, Repr

inductive HtmlToken where
  | openTag (name : String)
  | closeTag (name : String)
  | textTok (s : String)
deriving DecidableEq, Repr

/-- Tokenize `<name>`, `</name>` and text runs (simplified `html.parser`). -/
def tokenizeHtml (fuel : Nat) (l : List Char) : List HtmlToken :=
  match fuel, l with
  | 0, _ => []
  | _, [] => []
  | fuel + 1, '<' :: rest =>
    let isClose := rest.head? = some '/'
    let body := if isClose then rest.drop 1 else rest
    let name := body.takeWhile (fun c => c ≠ '>' && c ≠ ' ')
    let afterName := body.drop name.length
    let remainder := (afterName.dropWhile (fun c => c ≠ '>')).drop 1
    (if isClose then HtmlToken.closeTag (String.mk name)
     else HtmlToken.openTag (String.mk name)) :: tokenizeHtml fuel remainder
  | fuel + 1, c :: rest =>
    let run := c :: rest.takeWhile (fun ch => ch ≠ '<')
    HtmlToken.textTok (String.mk run) :: tokenizeHtml fuel (rest.drop (run.length - 1))

/-- Build a node forest from tokens with an open-element stack. -/
def buildNodes : List HtmlToken → List (String × List HtmlNode) →
    List HtmlNode → List HtmlNode
  | [], stack, acc =>
    match stack with
    | [] => acc.reverse
    | (name, kids) :: stackRest =>
      buildNodes [] stackRest (HtmlNode.elem name kids.reverse :: acc)
  | HtmlToken.textTok s :: toks, stack, acc =>
    match stack with
    | [] => buildNodes toks [] (HtmlNode.text s :: acc)
    | (name, kids) :: stackRest =>
      buildNodes toks ((name, HtmlNode.text s :: kids) :: stackRest) acc
  | HtmlToken.openTag n :: toks, stack, acc =>
    buildNodes toks ((n, []) :: stack) acc
  | HtmlToken.closeTag _ :: toks, stack, acc =>
    match stack with
    | [] => buildNodes toks [] acc
    | (name, kids) :: stackRest =>
      match stackRest with
      | [] => buildNodes toks [] (HtmlNode.elem name kids.reverse :: acc)
      | (pname, pkids) :: stackRest2 =>
        buildNodes toks ((pname, HtmlNode.elem name kids.reverse :: pkids) :: stackRest2) acc
termination_by toks stack _ => 2 * toks.length + stack.length

/-- Parse an HTML string into a node forest (model of `BeautifulSoup`). -/
def parseHtml (s : String) : List HtmlNode :=
  buildNodes (tokenizeHtml (s.toList.length + 1) s.toList) [] []

mutual

/-- `get_text(strip=True)`-style text content, whitespace stripped. -/
def textContent : HtmlNode → String
  | .text s => s.trim
  | .elem _ cs => textContentList cs

def textContentList : List HtmlNode → String
  | [] => ""
  | n :: ns => textContent n ++ textContentList ns

end

mutual

/-- Does the node contain an `li` element (for `ul.find('li')`)? -/
def hasLi : HtmlNode → Bool
  | .text _ => false
  | .elem name cs => name = "li" || hasLiList cs

def hasLiList : List HtmlNode → Bool
  | [] => false
  | n :: ns => hasLi n || hasLiList ns

end

mutual

/-- Decompose empty `<p>` tags (lines 134-136), recursively. -/
def dropEmptyP : HtmlNode → Option HtmlNode
  | .text s => some (.text s)
  | .elem name cs =>
    if name = "p" && textContentList cs = "" then none
    else some (.elem name (dropEmptyPList cs))

def dropEmptyPList : List HtmlNode → List HtmlNode
  | [] => []
  | n :: ns =>
    match dropEmptyP n with
    | none => dropEmptyPList ns
    | some m => m :: dropEmptyPList ns

end

mutual

/-- Decompose `ul`/`ol` elements with no `li` (lines 137-139), recursively. -/
def dropEmptyList : HtmlNode → Option HtmlNode
  | .text s => some (.text s)
  | .elem name cs =>
    if (name = "ul" || name = "ol") && !hasLiList cs then none
    else some (.elem name (dropEmptyListList cs))

def dropEmptyListList : List HtmlNode → List HtmlNode
  | [] => []
  | n :: ns =>
    match dropEmptyList n with
    | none => dropEmptyListList ns
    | some m => m :: dropEmptyListList ns

end

mutual

/-- Serialization, `str(soup)`. -/
def renderNode : HtmlNode → String
  | .text s => s
  | .elem name cs => "<" ++ name ++ ">" ++ renderNodes cs ++ "</" ++ name ++ ">"

def renderNodes : List HtmlNode → String
  | [] => ""
  | n :: ns => renderNode n ++ renderNodes ns

end

/-- The placeholder fragment of line 131. -/
def vtexPlaceholder (productName : String) : String :=
  "<p>Conteúdo para " ++ productName ++ " não pôde ser gerado.</p>"

/-- `_finalize_for_vtex`: guard for empty/non-string input, decompose
empty paragraphs and li-less lists, append a final empty `<p>` tag,
serialize. The `except` branch of lines 143-145 has no counterpart
because every step of the model is total. -/
def finalizeForVtex (htmlContent : PyInput) (productName : String) : String :=
  match htmlContent with
  | .notStr => vtexPlaceholder productName
  | .str s =>
    if s = "" then vtexPlaceholder productName
    else
      let soup := dropEmptyListList (dropEmptyPList (parseHtml s))
      renderNodes (soup ++ [HtmlNode.elem "p" []])

/-! ## `_force_clean_html` (use_cases.py lines 87-107)

`html.unescape` is external (CPython stdlib); it is modelled over a
finite entity table. Every entry of the full HTML5 table replaces a
reference of `1 + |name|` characters by a strictly shorter expansion,
the property the termination of the unescape loop rests on; the model
keeps a representative subset of that table. -/

def entityTable : List (String × String) :=
  [("amp;", "&"), ("lt;", "<"), ("gt;", ">"), ("quot;", "\""),
   ("apos;", "'"), ("nbsp;", " "), ("amp", "&"), ("lt", "<"),
   ("gt", ">"), ("quot", "\"")]

/-- First table entry whose name follows the ampersand. -/
def findEntity (l : List Char) : Option (String × String) :=
  entityTable.find? (fun p => p.1.toList.isPrefixOf l)

/-- One pass of `html.unescape` over the character list. -/
def unescapeGo (l : List Char) : List Char :=
  match l with
  | [] => []
  | '&' :: rest =>
    match findEntity rest with
    | some (name, repl) => repl.toList ++ unescapeGo (rest.drop name.length)
    | none => '&' :: unescapeGo rest
  | c :: rest => c :: unescapeGo rest
termination_by l.length
decreasing_by
  · simp only [List.length_cons]
    have := List.length_drop name.length rest
    omega
  · simp
  · simp

/-- One pass of `html.unescape` on a string. -/
def unescapeStr (s : String) : String :=
  String.mk (unescapeGo s.toList)

/-- Every replacement in the entity table is at most as long as the
entity name it replaces (so strictly shorter than the consumed
`'&' + name` text). -/
lemma entityTable_shorter :
    ∀ p ∈ entityTable, p.2.length ≤ p.1.length := by decide

/-- One unescape pass never lengthens the text. -/
lemma unescapeGo_length_le (l : List Char) :
    (unescapeGo l).length ≤ l.length := by
  induction l using unescapeGo.induct with
  | case1 => simp [unescapeGo]
  | case2 rest name repl hfind ih =>
    rw [unescapeGo]
    simp only [hfind, List.length_append, List.length_cons]
    have hmem := List.mem_of_find?_eq_some hfind
    have hpref := List.find?_some hfind
    have h1 : repl.length ≤ name.length := entityTable_shorter _ hmem
    have h2 : name.toList.length ≤ rest.length := by
      have := List.IsPrefix.length_le (List.isPrefixOf_iff_prefix.mp hpref)
      exact this
    have h3 : (rest.drop name.length).length = rest.length - name.length :=
      List.length_drop _ _
    have h4 : repl.toList.length = repl.length := rfl
    have h5 : name.toList.length = name.length := rfl
    omega
  | case3 rest hfind ih =>
    rw [unescapeGo]
    simp only [hfind, List.length_cons]
    omega
  | case4 c rest hne ih =>
    rw [unescapeGo]
    · simp only [List.length_cons]
      omega
    · exact hne

/-- One unescape pass either leaves the text unchanged or strictly
shortens it — the termination argument for the unescape loop. -/
lemma unescapeGo_eq_or_shorter (l : List Char) :
    unescapeGo l = l ∨ (unescapeGo l).length < l.length := by
  induction l using unescapeGo.induct with
  | case1 => left; simp [unescapeGo]
  | case2 rest name repl hfind ih =>
    right
    rw [unescapeGo]
    simp only [hfind, List.length_append, List.length_cons]
    have hmem := List.mem_of_find?_eq_some hfind
    have hpref := List.find?_some hfind
    have h1 : repl.length ≤ name.length := entityTable_shorter _ hmem
    have h2 : name.toList.length ≤ rest.length :=
      List.IsPrefix.length_le (List.isPrefixOf_iff_prefix.mp hpref)
    have h3 : (unescapeGo (rest.drop name.length)).length ≤
        (rest.drop name.length).length := unescapeGo_length_le _
    have h4 : (rest.drop name.length).length = rest.length - name.length :=
      List.length_drop _ _
    have h5 : repl.toList.length = repl.length := rfl
    have h6 : name.toList.length = name.length := rfl
    omega
  | case3 rest hfind ih =>
    rw [unescapeGo]
    simp only [hfind]
    rcases ih with h | h
    · left; rw [h]
    · right; simp only [List.length_cons]; omega
  | case4 c rest hne ih =>
    rw [unescapeGo]
    · rcases ih with h | h
      · left; rw [h]
      · right; simp only [List.length_cons]; omega
    · exact hne

/-- `String.mk` of a string's own character list is the string itself. -/
lemma String_mk_toList (s : String) : String.mk s.toList = s := rfl

/-- Length of a string built from a character list. -/
lemma String_mk_length (l : List Char) : (String.mk l).length = l.length := rfl

/-- One unescape pass on strings: fixed point or strictly shorter. -/
lemma unescapeStr_eq_or_shorter (s : String) :
    unescapeStr s = s ∨ (unescapeStr s).length < s.length := by
  rcases unescapeGo_eq_or_shorter s.toList with h | h
  · left
    show String.mk (unescapeGo s.toList) = s
    rw [h]
    exact String_mk_toList s
  · right
    show (String.mk (unescapeGo s.toList)).length < s.length
    rw [String_mk_length]
    exact h

/-- The unescape loop of lines 102-105: apply `html.unescape` until the
text stops changing. Termination: a changing pass strictly shortens. -/
def unescapeLoopGo (text : String) : String :=
  if unescapeStr text = text then text
  else unescapeLoopGo (unescapeStr text)
termination_by text.length
decreasing_by
  rcases unescapeStr_eq_or_shorter text with h | h
  · exact absurd h (by assumption)
  · exact h

/-- Checks `^```html\s*` case-insensitively (line 97) and strips it. -/
def stripHtmlFence (l : List Char) : List Char :=
  if (l.take 7).map Char.toLower = "```html".toList then
    (l.drop 7).dropWhile isReSpace
  else l

/-- Checks `^```\s*` (line 98) and strips it. -/
def stripFenceOpen (l : List Char) : List Char :=
  if l.take 3 = "```".toList then (l.drop 3).dropWhile isReSpace
  else l

/-- Checks `` ```$ `` (line 99) and strips it; `$` also matches just
before a final newline. -/
def stripFenceClose (l : List Char) : List Char :=
  if l.reverse.take 3 = "```".toList then l.take (l.length - 3)
  else if l.reverse.take 4 = ['\n', '`', '`', '`'] then
    l.take (l.length - 4) ++ ['\n']
  else l

/-- `_force_clean_html` (use_cases.py lines 87-107). -/
def forceCleanHtml (text : String) : String :=
  if text = "" then ""
  else
    let l3 := stripFenceClose (stripFenceOpen (stripHtmlFence text.toList))
    (unescapeLoopGo (String.mk l3)).trim

/-! ## Quality loop orchestrator, `run_seo_pipeline_stream`
(use_cases.py lines 234-307)

The loop of lines 265-307 is embedded with the agents as parameters:
`generator` models `generator_agent(product_name, product_info)` (its
value is `None` when content extraction failed), `refiner` models the
refiner call of line 273 applied to the current best content and the
latest audit feedback, `auditor` the always-non-null audit of line 279
and `score` the `audit_results.get("total_score", 0)` projection.
Events yielded to the stream and the agent calls performed are recorded
as traces. `LoopState.auditResults = none` models the Python local
`audit_results` not yet having been assigned: reading it then raises
`UnboundLocalError`, which escapes the loop to the orchestrator's
outer `except` handler — modelled by the `none` result. -/

def MAX_ATTEMPTS : Nat := 2

def MIN_SCORE_TARGET : Int := 95

inductive PipeEvent where
  | cycleLog (attempt : Nat)
  | extractFailLog (attempt : Nat)
  | scoreLog (attempt : Nat) (score : Int)
  | failedLog
  | doneEvent (finalScore : Int)
  | criticalError
deriving DecidableEq, Repr

inductive AgentCall (C A : Type) where
  | generatorCall
  | refinerCall (best : Option C) (feedback : A)
deriving DecidableEq

structure LoopState (C A : Type) where
  best : Option C
  highest : Int
  auditResults : Option A
deriving DecidableEq

/-- Lines 283-284: the best attempt is replaced exactly when the new
score strictly exceeds the running best. -/
def updateBest {C A : Type} (st : LoopState C A) (c : C) (s : Int) :
    LoopState C A :=
  if st.highest < s then { st with best := some c, highest := s } else st

/-- The `for attempt in range(1, MAX_ATTEMPTS + 1)` loop, embedded with
`fuel` counting the iterations left (`fuel = MAX_ATTEMPTS + 1 - attempt`;
`fuel = 0` is the loop running off the end). Returns the events yielded,
the agent calls performed, and `some` final state — or `none` when the
`UnboundLocalError` of reading `audit_results` before assignment escapes
the loop. -/
def attemptLoop {C A : Type} (generator : Option C)
    (refiner : Option C → A → Option C) (auditor : C → A) (score : A → Int) :
    Nat → Nat → LoopState C A →
    List PipeEvent × List (AgentCall C A) × Option (LoopState C A)
  | 0, _, st => ([], [], some st)
  | fuel + 1, attempt, st =>
    match
      (if attempt = 1 then some (generator, AgentCall.generatorCall (C := C) (A := A))
       else match st.auditResults with
         | none => none
         | some fb => some (refiner st.best fb, AgentCall.refinerCall st.best fb)) with
    | none => ([PipeEvent.cycleLog attempt], [], none)
    | some (contentData, call) =>
      match contentData with
      | none =>
        let r := attemptLoop generator refiner auditor score fuel (attempt + 1) st
        (PipeEvent.cycleLog attempt :: PipeEvent.extractFailLog attempt :: r.1,
         call :: r.2.1, r.2.2)
      | some c =>
        let a := auditor c
        let s := score a
        let st' : LoopState C A := { updateBest st c s with auditResults := some a }
        if MIN_SCORE_TARGET ≤ s then
          ([PipeEvent.cycleLog attempt, PipeEvent.scoreLog attempt s],
           [call], some st')
        else
          let r := attemptLoop generator refiner auditor score fuel (attempt + 1) st'
          (PipeEvent.cycleLog attempt :: PipeEvent.scoreLog attempt s :: r.1,
           call :: r.2.1, r.2.2)

/-- The quality loop plus its aftermath (lines 265-307): the final
no-content check at lines 289-291, the terminal `done` event of line
303, and the outer `except Exception` handler of lines 305-307 that
converts the escaped exception into a critical-error event. -/
def qualityRun {C A : Type} (generator : Option C)
    (refiner : Option C → A → Option C) (auditor : C → A) (score : A → Int) :
    List PipeEvent × List (AgentCall C A) :=
  let r := attemptLoop generator refiner auditor score MAX_ATTEMPTS 1
    { best := none, highest := -1, auditResults := none }
  match r.2.2 with
  | none => (r.1 ++ [PipeEvent.criticalError], r.2.1)
  | some st =>
    match st.best with
    | none => (r.1 ++ [PipeEvent.failedLog], r.2.1)
    | some _ => (r.1 ++ [PipeEvent.doneEvent st.highest], r.2.1)

/-! ## Helper lemmas for the quality loop -/

/-- The best-attempt update never lowers the recorded best score. -/
lemma updateBest_highest_le {C A : Type} (st : LoopState C A) (c : C) (s : Int) :
    st.highest ≤ (updateBest st c s).highest := by
  unfold updateBest
  split
  · rename_i h
    exact le_of_lt h
  · exact le_refl _

/-- On a strictly better score, the best pair is replaced. -/
lemma updateBest_of_lt {C A : Type} (st : LoopState C A) (c : C) (s : Int)
    (h : st.highest < s) :
    updateBest st c s =
      { best := some c, highest := s, auditResults := st.auditResults } := by
  unfold updateBest
  rw [if_pos h]

/-- On a score not exceeding the best, nothing changes. -/
lemma updateBest_of_le {C A : Type} (st : LoopState C A) (c : C) (s : Int)
    (h : s ≤ st.highest) : updateBest st c s = st := by
  unfold updateBest
  rw [if_neg (by omega)]

/-- The running best score never decreases along the loop. -/
lemma attemptLoop_highest_mono {C A : Type} (generator : Option C)
    (refiner : Option C → A → Option C) (auditor : C → A) (score : A → Int) :
    ∀ (fuel attempt : Nat) (st st' : LoopState C A),
      (attemptLoop generator refiner auditor score fuel attempt st).2.2 =
        some st' → st.highest ≤ st'.highest := by
  intro fuel
  induction fuel with
  | zero =>
    intro attempt st st' h
    simp only [attemptLoop] at h
    cases h
    exact le_refl _
  | succ fuel ih =>
    intro attempt st st' h
    simp only [attemptLoop] at h
    split at h
    · simp at h
    · rename_i contentData call heq
      split at h
      · exact ih (attempt + 1) st st' h
      · rename_i c
        split at h
        · simp only at h
          cases h
          exact updateBest_highest_le st c (score (auditor c))
        · have h' : (attemptLoop generator refiner auditor score fuel (attempt + 1)
              ({ updateBest st c (score (auditor c)) with
                 auditResults := some (auditor c) } : LoopState C A)).2.2 =
              some st' := h
          exact le_trans (updateBest_highest_le st c (score (auditor c)))
            (ih (attempt + 1)
              ({ updateBest st c (score (auditor c)) with
                 auditResults := some (auditor c) }) st' h')

/-! ## Claim theorems: quality loop (C1, C2, C4) -/

/-- **C1** (code bug). With agents that always fail content extraction
(`generator` and `refiner` both yield `None`), `run_seo_pipeline_stream`
does *not* exit the loop as FAILED after 2 attempts as the spec's
boundary requires: attempt 1 logs the extraction failure and `continue`s
without ever assigning `audit_results`, so attempt 2's refiner call
reads the unassigned local `audit_results` and raises
`UnboundLocalError`; the outer handler catches it and emits the
critical-error event instead of the designed `failedLog` of line 290,
and the refiner is never actually invoked. This theorem evaluates the
embedded orchestrator at that failing input. -/
theorem quality_loop_allfail_unbound_audit_crash :
    qualityRun (C := Nat) (A := Int) none (fun _ _ => none) (fun _ => 0) id =
      ([PipeEvent.cycleLog 1, PipeEvent.extractFailLog 1, PipeEvent.cycleLog 2,
        PipeEvent.criticalError], [AgentCall.generatorCall]) := rfl

/-- **C2**. Within one orchestrator run the recorded best score is
monotonically non-decreasing across attempts, and the best-attempt pair
is replaced exactly when a new attempt's audited score strictly exceeds
the current best (lines 283-284): the first conjunct characterises the
per-attempt update, the second propagates monotonicity through the
whole attempt loop. -/
theorem best_attempt_monotone_and_update_iff :
    (∀ (C A : Type) (st : LoopState C A) (c : C) (s : Int),
      st.highest ≤ (updateBest st c s).highest ∧
      (st.highest < s → updateBest st c s =
        { best := some c, highest := s, auditResults := st.auditResults }) ∧
      (s ≤ st.highest → updateBest st c s = st)) ∧
    (∀ (C A : Type) (generator : Option C) (refiner : Option C → A → Option C)
      (auditor : C → A) (score : A → Int) (fuel attempt : Nat)
      (st st' : LoopState C A),
      (attemptLoop generator refiner auditor score fuel attempt st).2.2 =
        some st' → st.highest ≤ st'.highest) :=
  ⟨fun _ _ st c s =>
    ⟨updateBest_highest_le st c s, updateBest_of_lt st c s,
     updateBest_of_le st c s⟩,
   fun _ _ generator refiner auditor score fuel attempt st st' h =>
    attemptLoop_highest_mono generator refiner auditor score fuel attempt
      st st' h⟩

/-- Witness for C2 at concrete inputs: a strictly better score replaces
the best pair, a worse one leaves it unchanged, and a concrete two-attempt
run never lowers the recorded best. -/
theorem best_attempt_monotone_and_update_iff_witness :
    updateBest (C := Nat) (A := Int) ⟨none, -1, none⟩ 5 10 =
      ⟨some 5, 10, none⟩ ∧
    updateBest (C := Nat) (A := Int) ⟨some 5, 10, none⟩ 6 3 =
      ⟨some 5, 10, none⟩ ∧
    (⟨none, -1, none⟩ : LoopState Nat Int).highest ≤
      (⟨some 7, 0, some 0⟩ : LoopState Nat Int).highest :=
  ⟨(best_attempt_monotone_and_update_iff.1 Nat Int ⟨none, -1, none⟩ 5 10).2.1
      (by decide),
   (best_attempt_monotone_and_update_iff.1 Nat Int ⟨some 5, 10, none⟩ 6 3).2.2
      (by decide),
   best_attempt_monotone_and_update_iff.2 Nat Int (some 7) (fun _ _ => none)
      (fun _ => (0 : Int)) id 2 1 ⟨none, -1, none⟩ ⟨some 7, 0, some 0⟩
      (by decide)⟩

/-- **C4**. When the first attempt produces content whose audited score
meets `MIN_SCORE_TARGET = 95`, the loop breaks at line 287 after exactly
one attempt: the event trace contains a single quality cycle and the
call trace is exactly one generator call — the refiner is never
invoked and no second attempt runs. -/
theorem quality_loop_early_exit_first_attempt {C A : Type}
    (generator : Option C) (refiner : Option C → A → Option C)
    (auditor : C → A) (score : A → Int) (c : C)
    (hg : generator = some c) (hs : MIN_SCORE_TARGET ≤ score (auditor c)) :
    qualityRun generator refiner auditor score =
      ([PipeEvent.cycleLog 1, PipeEvent.scoreLog 1 (score (auditor c)),
        PipeEvent.doneEvent (score (auditor c))],
       [AgentCall.generatorCall]) := by
  subst hg
  have hlt : (-1 : Int) < score (auditor c) := by
    have h95 : (95 : Int) ≤ score (auditor c) := hs
    omega
  have hloop : attemptLoop (some c) refiner auditor score MAX_ATTEMPTS 1
      { best := none, highest := -1, auditResults := none } =
      ([PipeEvent.cycleLog 1, PipeEvent.scoreLog 1 (score (auditor c))],
       [AgentCall.generatorCall],
       some { best := some c, highest := score (auditor c),
              auditResults := some (auditor c) }) := by
    show attemptLoop (some c) refiner auditor score (1 + 1) 1 _ = _
    rw [attemptLoop]
    simp [hs, hlt, updateBest]
  simp [qualityRun, hloop]

/-- Witness for C4: a generator whose audit scores 100 exits after one
attempt with a single generator call. -/
theorem quality_loop_early_exit_first_attempt_witness :
    qualityRun (C := Nat) (A := Int) (some 7) (fun _ _ => none)
      (fun _ => 100) id =
      ([PipeEvent.cycleLog 1, PipeEvent.scoreLog 1 100,
        PipeEvent.doneEvent 100], [AgentCall.generatorCall]) :=
  quality_loop_early_exit_first_attempt (some 7) (fun _ _ => none)
    (fun _ => 100) id 7 rfl (by decide)

/-! ## Claim theorems: retry executor (C5) -/

/-- Exhausting the budget on retryable outcomes returns `None`. -/
lemma backoffGo_all_retryable (oracle : Nat → GenOutcome) :
    ∀ (fuel attempt wait : Nat),
      (∀ j, attempt ≤ j → j < attempt + fuel → retryable (oracle j) = true) →
      backoffGo oracle fuel attempt wait = (none, attempt + fuel) := by
  intro fuel
  induction fuel with
  | zero =>
    intro attempt wait _
    simp [backoffGo]
  | succ fuel ih =>
    intro attempt wait h
    have h0 : retryable (oracle attempt) = true :=
      h attempt (le_refl _) (by omega)
    have harith : attempt + 1 + fuel = attempt + (fuel + 1) := by omega
    cases hov : oracle attempt with
    | ok t =>
      cases t with
      | none =>
        rw [backoffGo, hov,
          ih (attempt + 1) _ (fun j hj1 hj2 => h j (by omega) (by omega)), harith]
      | some t =>
        have ht : t = "" := by
          rw [hov] at h0
          simpa [retryable] using h0
        subst ht
        rw [backoffGo, hov]
        show backoffGo oracle fuel (attempt + 1) (min (wait * 2) 60) = _
        rw [ih (attempt + 1) _ (fun j hj1 hj2 => h j (by omega) (by omega)),
          harith]
    | transient =>
      rw [backoffGo, hov,
        ih (attempt + 1) _ (fun j hj1 hj2 => h j (by omega) (by omega)), harith]
    | fatal =>
      rw [hov] at h0
      simp [retryable] at h0

/-- A fatal outcome after only retryable ones aborts immediately. -/
lemma backoffGo_fatal (oracle : Nat → GenOutcome) :
    ∀ (fuel attempt wait k : Nat), attempt ≤ k → k < attempt + fuel →
      oracle k = GenOutcome.fatal →
      (∀ j, attempt ≤ j → j < k → retryable (oracle j) = true) →
      backoffGo oracle fuel attempt wait = (none, k + 1) := by
  intro fuel
  induction fuel with
  | zero =>
    intro attempt wait k h1 h2 _ _
    omega
  | succ fuel ih =>
    intro attempt wait k h1 h2 hk hall
    rcases Nat.eq_or_lt_of_le h1 with heq | hlt
    · subst heq
      rw [backoffGo, hk]
    · have h0 : retryable (oracle attempt) = true :=
        hall attempt (le_refl _) hlt
      cases hov : oracle attempt with
      | ok t =>
        cases t with
        | none =>
          rw [backoffGo, hov]
          exact ih (attempt + 1) _ k hlt (by omega) hk
            (fun j hj1 hj2 => hall j (by omega) hj2)
        | some t =>
          have ht : t = "" := by
            rw [hov] at h0
            simpa [retryable] using h0
          subst ht
          rw [backoffGo, hov]
          show backoffGo oracle fuel (attempt + 1) (min (wait * 2) 60) = _
          exact ih (attempt + 1) _ k hlt (by omega) hk
            (fun j hj1 hj2 => hall j (by omega) hj2)
      | transient =>
        rw [backoffGo, hov]
        exact ih (attempt + 1) _ k hlt (by omega) hk
          (fun j hj1 hj2 => hall j (by omega) hj2)
      | fatal =>
        rw [hov] at h0
        simp [retryable] at h0

/-- A successful non-empty response after only retryable ones returns
its text. -/
lemma backoffGo_success (oracle : Nat → GenOutcome) :
    ∀ (fuel attempt wait k : Nat) (t : String), attempt ≤ k →
      k < attempt + fuel → oracle k = GenOutcome.ok (some t) → t ≠ "" →
      (∀ j, attempt ≤ j → j < k → retryable (oracle j) = true) →
      backoffGo oracle fuel attempt wait = (some t, k + 1) := by
  intro fuel
  induction fuel with
  | zero =>
    intro attempt wait k t h1 h2 _ _ _
    omega
  | succ fuel ih =>
    intro attempt wait k t h1 h2 hk hne hall
    rcases Nat.eq_or_lt_of_le h1 with heq | hlt
    · subst heq
      rw [backoffGo, hk]
      show (if t = "" then backoffGo oracle fuel (attempt + 1) (min (wait * 2) 60)
            else (some t, attempt + 1)) = (some t, attempt + 1)
      rw [if_neg hne]
    · have h0 : retryable (oracle attempt) = true :=
        hall attempt (le_refl _) hlt
      cases hov : oracle attempt with
      | ok u =>
        cases u with
        | none =>
          rw [backoffGo, hov]
          exact ih (attempt + 1) _ k t hlt (by omega) hk hne
            (fun j hj1 hj2 => hall j (by omega) hj2)
        | some u =>
          have hu : u = "" := by
            rw [hov] at h0
            simpa [retryable] using h0
          subst hu
          rw [backoffGo, hov]
          show backoffGo oracle fuel (attempt + 1) (min (wait * 2) 60) = _
          exact ih (attempt + 1) _ k t hlt (by omega) hk hne
            (fun j hj1 hj2 => hall j (by omega) hj2)
      | transient =>
        rw [backoffGo, hov]
        exact ih (attempt + 1) _ k t hlt (by omega) hk hne
          (fun j hj1 hj2 => hall j (by omega) hj2)
      | fatal =>
        rw [hov] at h0
        simp [retryable] at h0

/-- **C5**. `_execute_prompt_with_backoff` never raises: an empty or
missing response text counts as retryable (the raised
`ServiceUnavailable` of line 150 is caught by the loop's own transient
handler); a fatal (non-transient) error returns `None` immediately
after that attempt; exhausting all `max_retries` attempts on retryable
outcomes returns `None`; and a non-empty success returns its text. -/
theorem backoff_never_raises_contract (oracle : Nat → GenOutcome)
    (maxRetries : Nat) :
    (retryable (GenOutcome.ok (some "")) = true ∧
      retryable (GenOutcome.ok none) = true) ∧
    ((∀ j, j < maxRetries → retryable (oracle j) = true) →
      executeWithBackoff oracle maxRetries = (none, maxRetries)) ∧
    (∀ k, k < maxRetries → oracle k = GenOutcome.fatal →
      (∀ j, j < k → retryable (oracle j) = true) →
      executeWithBackoff oracle maxRetries = (none, k + 1)) ∧
    (∀ k t, k < maxRetries → oracle k = GenOutcome.ok (some t) → t ≠ "" →
      (∀ j, j < k → retryable (oracle j) = true) →
      executeWithBackoff oracle maxRetries = (some t, k + 1)) := by
  refine ⟨⟨rfl, rfl⟩, ?_, ?_, ?_⟩
  · intro h
    have := backoffGo_all_retryable oracle maxRetries 0 2
      (fun j _ hj2 => h j (by omega))
    simpa [executeWithBackoff] using this
  · intro k hk hfatal hall
    exact backoffGo_fatal oracle maxRetries 0 2 k (by omega) (by omega) hfatal
      (fun j _ hj2 => hall j hj2)
  · intro k t hk hok hne hall
    exact backoffGo_success oracle maxRetries 0 2 k t (by omega) (by omega) hok
      hne (fun j _ hj2 => hall j hj2)

/-- Witness for C5: all-empty responses exhaust the budget; a fatal
error at attempt index 1 stops after 2 attempts; a real text at attempt
index 2 is returned after 3 attempts. -/
theorem backoff_never_raises_contract_witness :
    executeWithBackoff (fun _ => GenOutcome.ok (some "")) 5 = (none, 5) ∧
    executeWithBackoff
      (fun i => if i = 1 then GenOutcome.fatal else GenOutcome.transient) 5 =
      (none, 2) ∧
    executeWithBackoff
      (fun i => if i = 2 then GenOutcome.ok (some "ok")
                else GenOutcome.ok (some "")) 5 = (some "ok", 3) :=
  ⟨(backoff_never_raises_contract (fun _ => GenOutcome.ok (some "")) 5).2.1
      (by decide),
   (backoff_never_raises_contract _ 5).2.2.1 1 (by decide) (by decide)
      (by decide),
   (backoff_never_raises_contract _ 5).2.2.2 2 "ok" (by decide) (by decide)
      (by decide) (by decide)⟩

/-! ## Claim theorems: finalize for VTEX (C6) -/

/-- A string of positive length is not empty. -/
lemma string_ne_empty_of_length_pos (s : String) (h : 0 < s.length) :
    s ≠ "" := by
  intro he
  subst he
  exact Nat.lt_irrefl 0 h

/-- Serialization distributes over forest concatenation. -/
lemma renderNodes_append (a b : List HtmlNode) :
    renderNodes (a ++ b) = renderNodes a ++ renderNodes b := by
  induction a with
  | nil => simp [renderNodes]
  | cons n ns ih =>
    show renderNode n ++ renderNodes (ns ++ b) =
      renderNode n ++ renderNodes ns ++ renderNodes b
    rw [ih, String.append_assoc]

/-- **C6**. `_finalize_for_vtex` never raises (it is a total function of
this model) and always returns a non-empty string: on empty or
non-string input it returns the placeholder fragment naming the
product (line 131), and otherwise the serialized soup ends with the
appended empty `<p>` tag of lines 140-141, so it cannot be empty. -/
theorem finalize_nonempty_and_placeholder (input : PyInput)
    (productName : String) :
    finalizeForVtex input productName ≠ "" ∧
    ((input = PyInput.notStr ∨ input = PyInput.str "") →
      finalizeForVtex input productName = vtexPlaceholder productName) ∧
    vtexPlaceholder productName =
      "<p>Conteúdo para " ++ productName ++ " não pôde ser gerado.</p>" := by
  have hplaceholder : vtexPlaceholder productName ≠ "" := by
    apply string_ne_empty_of_length_pos
    show 0 < ("<p>Conteúdo para " ++ productName ++ " não pôde ser gerado.</p>").length
    rw [String.length_append, String.length_append]
    have h17 : (0 : Nat) < "<p>Conteúdo para ".length := by decide
    omega
  refine ⟨?_, ?_, rfl⟩
  · cases input with
    | notStr => exact hplaceholder
    | str s =>
      by_cases hs : s = ""
      · subst hs
        exact hplaceholder
      · show (if s = "" then vtexPlaceholder productName else _) ≠ ""
        rw [if_neg hs]
        apply string_ne_empty_of_length_pos
        rw [renderNodes_append, String.length_append]
        have h7 : (renderNodes [HtmlNode.elem "p" []]).length = 7 := rfl
        omega
  · intro hcase
    rcases hcase with h | h
    · subst h
      rfl
    · subst h
      rfl

/-- Witness for C6: the placeholder branch on empty input, and the
non-emptiness at a concrete non-string input. -/
theorem finalize_nonempty_and_placeholder_witness :
    finalizeForVtex (PyInput.str "") "Dipirona" =
      vtexPlaceholder "Dipirona" ∧
    finalizeForVtex PyInput.notStr "Dipirona" ≠ "" :=
  ⟨(finalize_nonempty_and_placeholder (PyInput.str "") "Dipirona").2.1
      (Or.inr rfl),
   (finalize_nonempty_and_placeholder PyInput.notStr "Dipirona").1⟩

/-! ## Claim theorems: success memory (C8) -/

/-- The trim of lines 61-62 is exactly "keep the suffix of length 3". -/
lemma trimMemory_eq_lastThree (m : List MemoryEntry) :
    trimMemory m = lastThree m := by
  unfold trimMemory lastThree
  split
  · rfl
  · rename_i h
    have : m.length - 3 = 0 := by omega
    rw [this, List.drop_zero]

/-- A short list is its own 3-suffix. -/
lemma lastThree_of_le (m : List MemoryEntry) (h : m.length ≤ 3) :
    lastThree m = m := by
  unfold lastThree
  have : m.length - 3 = 0 := by omega
  rw [this, List.drop_zero]

/-- The 3-suffix has at most 3 elements. -/
lemma lastThree_length_le (m : List MemoryEntry) :
    (lastThree m).length ≤ 3 := by
  unfold lastThree
  rw [List.length_drop]
  omega

/-- Taking `n` of `x ++ y.take n` is the same as taking `n` of `x ++ y`. -/
lemma take_append_take {α : Type} (x y : List α) (n : Nat) :
    (x ++ y.take n).take n = (x ++ y).take n := by
  rw [List.take_append_eq_append_take, List.take_append_eq_append_take,
    List.take_take]
  congr 2
  omega

/-- The 3-suffix via reverse-and-take. -/
lemma lastThree_eq_reverse_take (m : List MemoryEntry) :
    lastThree m = (m.reverse.take 3).reverse := by
  by_cases h : m.length ≤ 3
  · rw [lastThree_of_le m h, List.take_of_length_le (by simpa using h),
      List.reverse_reverse]
  · unfold lastThree
    have h3 : (m.drop (m.length - 3)).reverse =
        m.reverse.take (m.length - (m.length - 3)) := List.reverse_drop
    have harith : m.length - (m.length - 3) = 3 := by omega
    rw [harith] at h3
    calc m.drop (m.length - 3)
        = (m.drop (m.length - 3)).reverse.reverse := (List.reverse_reverse _).symm
      _ = (m.reverse.take 3).reverse := by rw [h3]

/-- Re-trimming after appending is the same as trimming once at the end. -/
lemma lastThree_append (a b : List MemoryEntry) :
    lastThree (lastThree a ++ b) = lastThree (a ++ b) := by
  rw [lastThree_eq_reverse_take (lastThree a ++ b),
    lastThree_eq_reverse_take (a ++ b)]
  congr 1
  rw [List.reverse_append, List.reverse_append, lastThree_eq_reverse_take,
    List.reverse_reverse]
  exact take_append_take _ _ _

/-- Folding `_save_success_to_memory` from any short memory leaves the
3-suffix of the memory followed by the inserted entries. -/
lemma foldl_saveSuccess_eq (es : List MemoryEntry) :
    ∀ (mem : List MemoryEntry), mem.length ≤ 3 →
      List.foldl saveSuccess mem es = lastThree (mem ++ insertedSeq mem es) := by
  induction es with
  | nil =>
    intro mem h
    simp only [List.foldl_nil, insertedSeq, List.append_nil]
    exact (lastThree_of_le mem h).symm
  | cons e es ih =>
    intro mem h
    by_cases hdup : mem.any (fun item => item.product = e.product)
    · have hstep : saveSuccess mem e = mem := by
        show (if mem.any (fun item => item.product = e.product) then mem
              else trimMemory (mem ++ [e])) = mem
        rw [if_pos hdup]
      have hins : insertedSeq mem (e :: es) = insertedSeq mem es := by
        show (if mem.any (fun item => item.product = e.product)
              then insertedSeq mem es
              else e :: insertedSeq (trimMemory (mem ++ [e])) es) =
          insertedSeq mem es
        rw [if_pos hdup]
      rw [List.foldl_cons, hstep, hins]
      exact ih mem h
    · have hstep : saveSuccess mem e = trimMemory (mem ++ [e]) := by
        show (if mem.any (fun item => item.product = e.product) then mem
              else trimMemory (mem ++ [e])) = trimMemory (mem ++ [e])
        rw [if_neg hdup]
      have hins : insertedSeq mem (e :: es) =
          e :: insertedSeq (trimMemory (mem ++ [e])) es := by
        show (if mem.any (fun item => item.product = e.product)
              then insertedSeq mem es
              else e :: insertedSeq (trimMemory (mem ++ [e])) es) =
          e :: insertedSeq (trimMemory (mem ++ [e])) es
        rw [if_neg hdup]
      rw [List.foldl_cons, hstep, hins]
      have htrimlen : (trimMemory (mem ++ [e])).length ≤ 3 := by
        rw [trimMemory_eq_lastThree]
        exact lastThree_length_le _
      rw [ih _ htrimlen]
      simp only [trimMemory_eq_lastThree]
      rw [lastThree_append, List.append_assoc]
      rfl

/-- **C8**. After any sequence of `_save_success_to_memory` calls
starting from an empty memory file, the stored memory is exactly the
suffix of length at most 3 of the sequence of entries actually inserted
(duplicate products are skipped before insertion): hence it never holds
more than 3 entries and eviction is FIFO — always the oldest entry by
insertion order is dropped. -/
theorem memory_capped_fifo_suffix (es : List MemoryEntry) :
    (memoryAfter es).length ≤ 3 ∧
    memoryAfter es = lastThree (insertedSeq [] es) ∧
    memoryAfter es <:+ insertedSeq [] es := by
  have h := foldl_saveSuccess_eq es [] (by simp)
  simp only [List.nil_append] at h
  refine ⟨?_, h, ?_⟩
  · rw [show memoryAfter es = List.foldl saveSuccess [] es from rfl, h]
    exact lastThree_length_le _
  · rw [show memoryAfter es = List.foldl saveSuccess [] es from rfl, h]
    exact List.drop_suffix _ _

/-! ## Claim theorems: strategy ledger (C7) -/

/-- Insertion produces a permutation. -/
lemma insertDesc_perm (r : StrategyRecord) (l : List StrategyRecord) :
    List.Perm (insertDesc r l) (r :: l) := by
  induction l with
  | nil => exact List.Perm.refl _
  | cons y ys ih =>
    unfold insertDesc
    split
    · exact (List.Perm.cons y ih).trans (List.Perm.swap r y ys)
    · exact List.Perm.refl _

/-- The ranked order produced by stable insertion sort is a permutation
of its input. -/
lemma sortDesc_perm (l : List StrategyRecord) : List.Perm (sortDesc l) l := by
  induction l with
  | nil => exact List.Perm.refl _
  | cons x xs ih =>
    exact (insertDesc_perm x (sortDesc xs)).trans (List.Perm.cons x ih)

/-- Insertion preserves descending order by score delta. -/
lemma insertDesc_pairwise (r : StrategyRecord) (l : List StrategyRecord)
    (h : l.Pairwise (fun a b => b.melhoraScore ≤ a.melhoraScore)) :
    (insertDesc r l).Pairwise (fun a b => b.melhoraScore ≤ a.melhoraScore) := by
  induction l with
  | nil => simp [insertDesc]
  | cons y ys ih =>
    rw [List.pairwise_cons] at h
    unfold insertDesc
    split
    · rename_i hlt
      rw [List.pairwise_cons]
      constructor
      · intro z hz
        have hz' := (insertDesc_perm r ys).mem_iff.mp hz
        rcases List.mem_cons.mp hz' with hzr | hzys
        · subst hzr
          omega
        · exact h.1 z hzys
      · exact ih h.2
    · rename_i hge
      rw [List.pairwise_cons]
      constructor
      · intro z hz
        rcases List.mem_cons.mp hz with hzy | hzys
        · subst hzy
          omega
        · have := h.1 z hzys
          omega
      · exact List.pairwise_cons.mpr h

/-- The ranked list is sorted descending by score delta. -/
lemma sortDesc_pairwise (l : List StrategyRecord) :
    (sortDesc l).Pairwise (fun a b => b.melhoraScore ≤ a.melhoraScore) := by
  induction l with
  | nil => simp [sortDesc]
  | cons x xs ih => exact insertDesc_pairwise x (sortDesc xs) ih

/-- Inserting a record with a different delta does not disturb the
records of a given delta. -/
lemma insertDesc_filter_ne (r : StrategyRecord) (l : List StrategyRecord)
    (d : Int) (hd : (r.melhoraScore == d) = false) :
    (insertDesc r l).filter (fun s => s.melhoraScore == d) =
      l.filter (fun s => s.melhoraScore == d) := by
  induction l with
  | nil => simp [insertDesc, List.filter, hd]
  | cons y ys ih =>
    unfold insertDesc
    split
    · rw [List.filter_cons, List.filter_cons]
      split
      · rw [ih]
      · exact ih
    · simp [List.filter_cons, hd]

/-- Inserting a record keeps it behind all earlier records of the same
delta: the walked-over records all have strictly larger deltas. -/
lemma insertDesc_filter_self (r : StrategyRecord) (l : List StrategyRecord) :
    (insertDesc r l).filter (fun s => s.melhoraScore == r.melhoraScore) =
      r :: l.filter (fun s => s.melhoraScore == r.melhoraScore) := by
  induction l with
  | nil => simp [insertDesc, List.filter]
  | cons y ys ih =>
    unfold insertDesc
    split
    · rename_i hlt
      have hy : (y.melhoraScore == r.melhoraScore) = false := by
        simp only [beq_eq_false_iff_ne, ne_eq]
        omega
      rw [List.filter_cons, hy, List.filter_cons, hy]
      simpa using ih
    · simp [List.filter_cons]

/-- Stability of the ranked order: for every delta value, the records
carrying that delta appear in the ranked list in their original
insertion order. -/
lemma sortDesc_stable (l : List StrategyRecord) (d : Int) :
    (sortDesc l).filter (fun s => s.melhoraScore == d) =
      l.filter (fun s => s.melhoraScore == d) := by
  induction l with
  | nil => rfl
  | cons x xs ih =>
    show (insertDesc x (sortDesc xs)).filter (fun s => s.melhoraScore == d) =
      (x :: xs).filter (fun s => s.melhoraScore == d)
    by_cases hx : (x.melhoraScore == d) = true
    · have hxd : x.melhoraScore = d := by simpa using hx
      subst hxd
      rw [insertDesc_filter_self, ih, List.filter_cons]
      simp
    · have hx' : (x.melhoraScore == d) = false := by
        simpa using hx
      rw [insertDesc_filter_ne x (sortDesc xs) d hx', ih, List.filter_cons, hx']
      simp

/-- **C7**. A strategy record appended via `log_strategy` with a
non-zero score delta is among the records the ranking query
`get_strategies` considers for its product type; that ranked list is
ordered descending by `melhora_score`; and the sort is stable — for
every delta value, records of that delta keep their original insertion
order (Python's `sorted` is stable; `sortDesc` embeds it). -/
theorem ledger_append_ranked_stable (ledger : List StrategyRecord)
    (scoreBefore scoreAfter : Int) (ptype desc ts : String)
    (hdelta : scoreAfter - scoreBefore ≠ 0) :
    (⟨desc, ptype, scoreBefore, scoreAfter, scoreAfter - scoreBefore, ts⟩ :
        StrategyRecord) ∈
      sortedStrategies (logStrategy ledger scoreBefore scoreAfter ptype desc ts)
        ptype ∧
    (∀ (l : List StrategyRecord) (p : String),
      (sortedStrategies l p).Pairwise
        (fun a b => b.melhoraScore ≤ a.melhoraScore)) ∧
    (∀ (l : List StrategyRecord) (p : String) (d : Int),
      (sortedStrategies l p).filter (fun s => s.melhoraScore == d) =
        (relevantStrategies l p).filter (fun s => s.melhoraScore == d)) := by
  refine ⟨?_, fun l p => sortDesc_pairwise _, fun l p d => sortDesc_stable _ d⟩
  unfold logStrategy
  rw [if_neg hdelta]
  unfold sortedStrategies relevantStrategies
  have hmem : (⟨desc, ptype, scoreBefore, scoreAfter,
      scoreAfter - scoreBefore, ts⟩ : StrategyRecord) ∈
      (ledger ++ [(⟨desc, ptype, scoreBefore, scoreAfter,
        scoreAfter - scoreBefore, ts⟩ : StrategyRecord)]).filter
        (fun s => s.tipoDeProduto = ptype) := by
    rw [List.mem_filter]
    refine ⟨List.mem_append_right _ ?_, by simp⟩
    exact List.mem_singleton.mpr rfl
  have hne : (ledger ++ [(⟨desc, ptype, scoreBefore, scoreAfter,
      scoreAfter - scoreBefore, ts⟩ : StrategyRecord)]).filter
      (fun s => s.tipoDeProduto = ptype) ≠ [] :=
    List.ne_nil_of_mem hmem
  rw [if_neg hne]
  exact (sortDesc_perm _).mem_iff.mpr hmem

/-- Witness for C7: a record with delta +10 appended to a one-record
ledger is found among the ranked records. -/
theorem ledger_append_ranked_stable_witness :
    (⟨"s4", "med", 10, 20, 10, "t4"⟩ : StrategyRecord) ∈
      sortedStrategies
        (logStrategy [⟨"s1", "med", 10, 30, 20, "t1"⟩] 10 20 "med" "s4" "t4")
        "med" :=
  (ledger_append_ranked_stable [⟨"s1", "med", 10, 30, 20, "t1"⟩] 10 20 "med"
    "s4" "t4" (by decide)).1

/-! ## Claim theorems: Google search (C9) -/

/-- With no unexpected exception among the pending queries, the loop is
a map of the per-query handler appended to the accumulator. -/
lemma searchGo_no_unexpected (oracle : String → QueryOutcome)
    (allQueries : List String) :
    ∀ (pending : List String) (acc : List SearchResult),
      (∀ q ∈ pending, isUnexpected (oracle q) = false) →
      searchGo oracle allQueries pending acc =
        acc.reverse ++ pending.map (perQueryResult oracle) := by
  intro pending
  induction pending with
  | nil =>
    intro acc _
    simp [searchGo]
  | cons q rest ih =>
    intro acc hq
    have hq0 : isUnexpected (oracle q) = false := hq q (List.mem_cons_self q rest)
    cases hov : oracle q with
    | ok items rel =>
      simp only [searchGo, hov]
      rw [ih _ (fun p hp => hq p (List.mem_cons_of_mem q hp))]
      simp [perQueryResult, hov]
    | httpError e =>
      simp only [searchGo, hov]
      rw [ih _ (fun p hp => hq p (List.mem_cons_of_mem q hp))]
      simp [perQueryResult, hov]
    | unexpected e =>
      rw [hov] at hq0
      simp [isUnexpected] at hq0

/-- An unexpected exception among the pending queries aborts to the
outer handler: the whole batch degrades, whatever was accumulated. -/
lemma searchGo_unexpected (oracle : String → QueryOutcome)
    (allQueries : List String) :
    ∀ (pending : List String) (acc : List SearchResult),
      (∃ q ∈ pending, isUnexpected (oracle q) = true) →
      searchGo oracle allQueries pending acc =
        allQueries.map generalFailure := by
  intro pending
  induction pending with
  | nil =>
    intro acc h
    simp at h
  | cons q rest ih =>
    intro acc h
    cases hov : oracle q with
    | ok items rel =>
      simp only [searchGo, hov]
      apply ih
      obtain ⟨p, hp, hpu⟩ := h
      rcases List.mem_cons.mp hp with hpq | hpr
      · subst hpq
        rw [hov] at hpu
        simp [isUnexpected] at hpu
      · exact ⟨p, hpr, hpu⟩
    | httpError e =>
      simp only [searchGo, hov]
      apply ih
      obtain ⟨p, hp, hpu⟩ := h
      rcases List.mem_cons.mp hp with hpq | hpr
      · subst hpq
        rw [hov] at hpu
        simp [isUnexpected] at hpu
      · exact ⟨p, hpr, hpu⟩
    | unexpected e =>
      simp only [searchGo, hov]

/-- **C9**. `GoogleSearch.search` returns exactly one result object per
input query, in input order (first conjunct: the projection to queries
is the identity on the input list, hence no shortening), and degrades
instead of raising: missing/empty credentials yield the keyed empty
structures of line 29; a failure building the service, or a
non-`HttpError` exception inside the loop, yields the full-length
degradation list of lines 73-74; otherwise each query gets its
per-query result, which for an `HttpError` is the empty structure with
the error recorded (line 70). Every `SearchResult` carries the `query`,
`items`, `related_questions` and `related_searches` fields by
construction. -/
theorem google_search_per_query_shape (apiKey cseId : Option String)
    (buildOk : Bool) (oracle : String → QueryOutcome)
    (queries : List String) :
    (googleSearch apiKey cseId buildOk oracle queries).map
        (fun r => r.query) = queries ∧
    ((credMissing apiKey || credMissing cseId) = true →
      googleSearch apiKey cseId buildOk oracle queries =
        queries.map emptyResult) ∧
    ((credMissing apiKey || credMissing cseId) = false → buildOk = false →
      googleSearch apiKey cseId buildOk oracle queries =
        queries.map generalFailure) ∧
    ((credMissing apiKey || credMissing cseId) = false → buildOk = true →
      (∀ q ∈ queries, isUnexpected (oracle q) = false) →
      googleSearch apiKey cseId buildOk oracle queries =
        queries.map (perQueryResult oracle)) ∧
    ((credMissing apiKey || credMissing cseId) = false → buildOk = true →
      (∃ q ∈ queries, isUnexpected (oracle q) = true) →
      googleSearch apiKey cseId buildOk oracle queries =
        queries.map generalFailure) ∧
    (∀ q e, oracle q = QueryOutcome.httpError e →
      perQueryResult oracle q =
        { query := q, items := [], relatedQuestions := [],
          relatedSearches := [], error := some e }) := by
  have hshape : ∀ q, (perQueryResult oracle q).query = q := by
    intro q
    unfold perQueryResult
    cases oracle q <;> rfl
  refine ⟨?_, ?_, ?_, ?_, ?_, ?_⟩
  · unfold googleSearch
    by_cases hc : (credMissing apiKey || credMissing cseId) = true
    · rw [if_pos hc]
      simp [emptyResult, Function.comp_def]
    · rw [if_neg hc]
      cases buildOk with
      | false =>
        simp [generalFailure, Function.comp_def]
      | true =>
        by_cases hu : ∃ q ∈ queries, isUnexpected (oracle q) = true
        · rw [searchGo_unexpected oracle queries queries [] hu]
          simp [generalFailure, Function.comp_def]
        · push_neg at hu
          have hu' : ∀ q ∈ queries, isUnexpected (oracle q) = false := by
            intro q hq
            have := hu q hq
            simp only [Bool.not_eq_true] at this
            exact this
          rw [searchGo_no_unexpected oracle queries queries [] hu']
          simp [Function.comp_def, hshape]
  · intro hc
    unfold googleSearch
    rw [if_pos hc]
  · intro hc hb
    subst hb
    unfold googleSearch
    rw [if_neg (by simp [hc])]
    rfl
  · intro hc hb hall
    subst hb
    unfold googleSearch
    rw [if_neg (by simp [hc]),
      searchGo_no_unexpected oracle queries queries [] hall]
    simp
  · intro hc hb hex
    subst hb
    unfold googleSearch
    rw [if_neg (by simp [hc]),
      searchGo_unexpected oracle queries queries [] hex]
    simp
  · intro q e hov
    unfold perQueryResult
    rw [hov]

/-- Witness for C9 at concrete inputs: a two-query batch where the
second query hits an `HttpError` keeps both result objects in order,
with an empty-result structure for the failing query. -/
theorem google_search_per_query_shape_witness :
    googleSearch (some "k") (some "x") true
      (fun q => if q = "q2" then QueryOutcome.httpError "boom"
                else QueryOutcome.ok ["i"] ["r"]) ["q1", "q2"] =
      [{ query := "q1", items := ["i"], relatedQuestions := ["r"],
         relatedSearches := ["r"], error := none },
       { query := "q2", items := [], relatedQuestions := [],
         relatedSearches := [], error := some "boom" }] := by
  have h := (google_search_per_query_shape (some "k") (some "x") true
    (fun q => if q = "q2" then QueryOutcome.httpError "boom"
              else QueryOutcome.ok ["i"] ["r"]) ["q1", "q2"]).2.2.2.1
    (by decide) rfl (by decide)
  rw [h]
  rfl

/-! ## Claim theorems: unescape loop termination (C10) -/

/-- The unescape loop reaches a fixed point of `html.unescape` in at
most `s.length` iterations. -/
lemma unescapeLoopGo_reaches_fixpoint (s : String) :
    ∃ k, k ≤ s.length ∧ unescapeLoopGo s = unescapeStr^[k] s ∧
      unescapeStr (unescapeLoopGo s) = unescapeLoopGo s := by
  by_cases h : unescapeStr s = s
  · refine ⟨0, Nat.zero_le _, ?_, ?_⟩
    · rw [unescapeLoopGo, if_pos h]
      rfl
    · rw [unescapeLoopGo, if_pos h, h]
  · have hlt : (unescapeStr s).length < s.length :=
      (unescapeStr_eq_or_shorter s).resolve_left h
    obtain ⟨k, hk1, hk2, hk3⟩ := unescapeLoopGo_reaches_fixpoint (unescapeStr s)
    refine ⟨k + 1, by omega, ?_, ?_⟩
    · rw [unescapeLoopGo, if_neg h, hk2, Function.iterate_succ_apply]
    · rw [unescapeLoopGo, if_neg h]
      exact hk3
termination_by s.length
decreasing_by exact hlt

/-- **C10**. `_force_clean_html` is total: its unescape loop terminates
because a pass of `html.unescape` that changes the text strictly
shortens it (first conjunct, the model's replacement table preserving
the length property of the full HTML5 table), so the loop reaches a
fixed point after at most `length` iterations (second conjunct), and
`_force_clean_html` is the composition of the markdown strips, that
loop, and a final strip (third conjunct) — a total function on
strings. -/
theorem force_clean_html_total (s : String) :
    (unescapeStr s = s ∨ (unescapeStr s).length < s.length) ∧
    (∃ k, k ≤ s.length ∧ unescapeLoopGo s = unescapeStr^[k] s ∧
      unescapeStr (unescapeLoopGo s) = unescapeLoopGo s) ∧
    forceCleanHtml s =
      (if s = "" then ""
       else (unescapeLoopGo (String.mk (stripFenceClose (stripFenceOpen
         (stripHtmlFence s.toList))))).trim) :=
  ⟨unescapeStr_eq_or_shorter s, unescapeLoopGo_reaches_fixpoint s, rfl⟩

/-! ## Claim theorems: JSON extraction (C3) -/

/-- `toList` distributes over string concatenation. -/
lemma String_toList_append (a b : String) :
    (a ++ b).toList = a.toList ++ b.toList :=
  String.data_append a b

/-- A string whose character list is nonempty is nonempty. -/
lemma string_ne_empty_of_toList_ne_nil (s : String) (h : s.toList ≠ []) :
    s ≠ "" := by
  intro he
  subst he
  exact h rfl

/-- Without a backtick there is no fenced block to find. -/
lemma fenceSearch_none_of_no_backtick :
    ∀ (l : List Char), '`' ∉ l → fenceSearch l = none := by
  intro l
  induction l with
  | nil => intro _; rfl
  | cons c rest ih =>
    intro hbt
    have hc : ('`' == c) = false :=
      beq_eq_false_iff_ne.mpr
        (fun h => hbt (h ▸ List.mem_cons_self _ _))
    have hpref : fenceHead.isPrefixOf (c :: rest) = false := by
      show (('`' == c) && List.isPrefixOf _ rest) = false
      rw [hc, Bool.false_and]
    rw [fenceSearch, hpref]
    show fenceSearch rest = none
    exact ih (fun h => hbt (List.mem_cons_of_mem _ h))

/-- Dropping whitespace across an append whose left part holds a
non-space character stays inside the left part. -/
lemma dropWhile_append_left (p : Char → Bool) :
    ∀ (b t : List Char), (∃ x ∈ b, p x = false) →
      (b ++ t).dropWhile p = b.dropWhile p ++ t := by
  intro b
  induction b with
  | nil =>
    intro t h
    simp at h
  | cons c b' ih =>
    intro t hex
    by_cases hc : p c = true
    · have hex' : ∃ x ∈ b', p x = false := by
        obtain ⟨x, hx, hxp⟩ := hex
        rcases List.mem_cons.mp hx with h1 | h2
        · subst h1
          rw [hc] at hxp
          cases hxp
        · exact ⟨x, h2, hxp⟩
      rw [List.cons_append, List.dropWhile_cons, List.dropWhile_cons, if_pos hc,
        if_pos hc]
      exact ih t hex'
    · have hc' : p c = false := by
        simpa using hc
      rw [List.cons_append, List.dropWhile_cons, List.dropWhile_cons,
        if_neg (by simp [hc']), if_neg (by simp [hc']), List.cons_append]

/-- The last element reported by `getLast?` is a member of the list. -/
lemma mem_of_getLast?_eq (l : List Char) (a : Char) (h : l.getLast? = some a) :
    a ∈ l := by
  have hx : a ∈ l.getLast? := Option.mem_def.mpr h
  obtain ⟨hne, heq⟩ := List.mem_getLast?_eq_getLast hx
  rw [heq]
  exact List.getLast_mem hne

/-- The regex continuation `` \s*``` `` cannot complete from inside the
JSON text: a backtick-free block holding a non-space character blocks
it. -/
lemma closeOk_false_of (b t : List Char) (hex : ∃ x ∈ b, isReSpace x = false)
    (hbt : '`' ∉ b) : closeOk (b ++ t) = false := by
  unfold closeOk
  rw [dropWhile_append_left isReSpace b t hex]
  have hne : b.dropWhile isReSpace ≠ [] := by
    intro hnil
    obtain ⟨x, hx, hxp⟩ := hex
    have := List.dropWhile_eq_nil_iff.mp hnil x hx
    rw [hxp] at this
    cases this
  obtain ⟨d, ds, hds⟩ := List.exists_cons_of_ne_nil hne
  have hd : d ∈ b := by
    have hsub : List.Sublist (b.dropWhile isReSpace) b :=
      List.dropWhile_sublist _
    exact hsub.subset (hds ▸ List.mem_cons_self d ds)
  have hdb : d ≠ '`' := fun h => hbt (h ▸ hd)
  rw [hds]
  apply decide_eq_false
  intro heq
  rw [show List.take 3 (d :: ds ++ t) = d :: List.take 2 (ds ++ t) from rfl]
    at heq
  exact hdb (by injection heq)

/-- The lazy closing-brace scan runs to the end of a backtick-free block
ending in a closing brace, and closes exactly there. -/
lemma lazyClose_spec :
    ∀ (m acc : List Char), m ≠ [] → m.getLast? = some '}' → '`' ∉ m →
      lazyClose acc (m ++ ['\n', '`', '`', '`']) =
        some (acc.reverse ++ m) := by
  intro m
  induction m with
  | nil =>
    intro acc h
    exact absurd rfl h
  | cons c m' ih =>
    intro acc _ hlast hbt
    by_cases hm' : m' = []
    · subst hm'
      have hc : c = '}' := by
        simpa using hlast
      subst hc
      show lazyClose acc ('}' :: ['\n', '`', '`', '`']) = some (acc.reverse ++ ['}'])
      rw [show lazyClose acc ('}' :: ['\n', '`', '`', '`']) =
        some (('}' :: acc).reverse) from rfl, List.reverse_cons]
    · obtain ⟨a, m'', rfl⟩ := List.exists_cons_of_ne_nil hm'
      have hlast' : (a :: m'').getLast? = some '}' := by
        rwa [List.getLast?_cons_cons] at hlast
      have hbt' : '`' ∉ a :: m'' := fun h => hbt (List.mem_cons_of_mem _ h)
      have hcnb : c ≠ '`' := fun h => hbt (h ▸ List.mem_cons_self _ _)
      have hcond : (decide (c = '}') && closeOk ((a :: m'') ++ ['\n', '`', '`', '`'])) = false := by
        by_cases hc : c = '}'
        · have hclose : closeOk ((a :: m'') ++ ['\n', '`', '`', '`']) = false := by
            apply closeOk_false_of
            · refine ⟨'}', ?_, rfl⟩
              exact mem_of_getLast?_eq _ _ hlast'
            · exact hbt'
          rw [hclose, Bool.and_false]
        · rw [decide_eq_false hc, Bool.false_and]
      show lazyClose acc (c :: ((a :: m'') ++ ['\n', '`', '`', '`'])) =
        some (acc.reverse ++ c :: (a :: m''))
      rw [lazyClose, hcond]
      show lazyClose (c :: acc) ((a :: m'') ++ ['\n', '`', '`', '`']) =
        some (acc.reverse ++ c :: (a :: m''))
      rw [ih (c :: acc) hm' hlast' hbt', List.reverse_cons, List.append_assoc]
      rfl

/-- On text that starts with `{` and ends with `}`, the first-to-last
brace slice of lines 118-121 is the whole text. -/
lemma braceSlice_of_wrapped (l : List Char) (h1 : l.head? = some '{')
    (h2 : l.getLast? = some '}') : braceSlice l = some l := by
  obtain ⟨a, tail, rfl⟩ : ∃ a tail, l = a :: tail := by
    cases l with
    | nil => cases h1
    | cons a tail => exact ⟨a, tail, rfl⟩
  have ha : a = '{' := by simpa using h1
  subst ha
  have htail : tail ≠ [] := by
    intro h
    subst h
    simp at h2
  have hpre : ('{' :: tail).takeWhile (fun c => c ≠ '{') = [] := rfl
  have hrevh : ('{' :: tail).reverse.head? = some '}' := by
    rw [List.head?_reverse]
    exact h2
  obtain ⟨r, rs, hrev⟩ : ∃ r rs, ('{' :: tail).reverse = r :: rs := by
    cases hx : ('{' :: tail).reverse with
    | nil => rw [hx] at hrevh; cases hrevh
    | cons r rs => exact ⟨r, rs, rfl⟩
  have hr : r = '}' := by
    rw [hrev] at hrevh
    simpa using hrevh
  subst hr
  have hsuf : ('{' :: tail).reverse.takeWhile (fun c => c ≠ '}') = [] := by
    rw [hrev]
    rfl
  have hlenpos : 0 < tail.length := List.length_pos.mpr htail
  simp only [braceSlice, hpre, hsuf, List.length_nil]
  rw [if_neg (by simp [List.length_cons])]
  rw [if_pos (by simp only [List.length_cons]; omega)]
  have harith : ('{' :: tail).length - 1 - 0 - 0 + 1 = ('{' :: tail).length := by
    simp only [List.length_cons]
    omega
  rw [List.drop_zero, harith, List.take_length]

/-- The control-character cleanup is the identity on clean text. -/
lemma cleanChars_id (l : List Char)
    (h : ∀ c ∈ l,
      (31 < c.toNat || c = '\n' || c = '\t' || c = '\r') = true) :
    cleanChars l = l :=
  List.filter_eq_self.mpr h

/-- The fence pattern on a fenced backtick-free JSON body matches at
position 0 and captures exactly the body. -/
lemma fenceSearch_fenced (tail : List Char) (htne : tail ≠ [])
    (htlast : tail.getLast? = some '}') (htbt : '`' ∉ tail) :
    fenceSearch ('`' :: '`' :: '`' :: 'j' :: 's' :: 'o' :: 'n' :: '\n' ::
      (('{' :: tail) ++ ['\n', '`', '`', '`'])) = some ('{' :: tail) := by
  have hlz : lazyClose ['{'] (tail ++ ['\n', '`', '`', '`']) =
      some ('{' :: tail) := by
    have h := lazyClose_spec tail ['{'] htne htlast htbt
    simpa using h
  show (match lazyClose ['{'] (tail ++ ['\n', '`', '`', '`']) with
        | some g => some g
        | none => fenceSearch ('`' :: '`' :: 'j' :: 's' :: 'o' :: 'n' :: '\n' ::
            (('{' :: tail) ++ ['\n', '`', '`', '`']))) = some ('{' :: tail)
  rw [hlz]

/-- **C3 amended**. For a JSON object `o` and a plain serialization `s`
of it — valid JSON text that parses to `o`, starts with `{`, ends with
`}`, has no raw control characters — *that contains no backtick*,
`_extract_json_from_string` returns `o` both on `s` itself (via the
first-`{`-to-last-`}` slice) and on the ```` ```json ````-fenced version
of `s` (via the fence regex, whose lazy group captures exactly `s`).
The backtick restriction is forced by the counterexample
`extract_json_fence_mismatch_cx`: with a backtick sequence inside a
string field the lazy fence group closes too early and the fenced call
fails while the plain call succeeds. -/
theorem extract_json_plain_eq_fenced (s : String) (o : Json)
    (hp : parseJson s = some o)
    (hhead : s.toList.head? = some '{')
    (hlast : s.toList.getLast? = some '}')
    (hbt : '`' ∉ s.toList)
    (hctl : ∀ c ∈ s.toList,
      (31 < c.toNat || c = '\n' || c = '\t' || c = '\r') = true) :
    extractJson s = some o ∧
    extractJson ("```json\n" ++ s ++ "\n```") = some o := by
  have hclean : cleanChars s.toList = s.toList := cleanChars_id _ hctl
  have hs0 : s ≠ "" := string_ne_empty_of_toList_ne_nil s (by
    intro h
    rw [h] at hhead
    cases hhead)
  constructor
  · have hfn : fenceSearch s.toList = none :=
      fenceSearch_none_of_no_backtick _ hbt
    have hbs : braceSlice s.toList = some s.toList :=
      braceSlice_of_wrapped _ hhead hlast
    simp only [extractJson, if_neg hs0, hfn, hbs, hclean]
    exact hp
  · obtain ⟨tail, hsl⟩ : ∃ tail, s.toList = '{' :: tail := by
      cases hx : s.toList with
      | nil => rw [hx] at hhead; cases hhead
      | cons a t =>
        rw [hx] at hhead
        exact ⟨t, by rw [show a = '{' from by simpa using hhead]⟩
    have htne : tail ≠ [] := by
      intro h
      rw [h] at hsl
      rw [hsl] at hlast
      simp at hlast
    have htlast : tail.getLast? = some '}' := by
      rw [hsl] at hlast
      obtain ⟨a, t', rfl⟩ := List.exists_cons_of_ne_nil htne
      rwa [List.getLast?_cons_cons] at hlast
    have htbt : '`' ∉ tail := fun h =>
      hbt (hsl ▸ List.mem_cons_of_mem _ h)
    have hT : ("```json\n" ++ s ++ "\n```").toList =
        '`' :: '`' :: '`' :: 'j' :: 's' :: 'o' :: 'n' :: '\n' ::
          (('{' :: tail) ++ ['\n', '`', '`', '`']) := by
      rw [String_toList_append, String_toList_append, hsl]
      rfl
    have hT0 : ("```json\n" ++ s ++ "\n```") ≠ "" := by
      apply string_ne_empty_of_toList_ne_nil
      rw [hT]
      exact List.cons_ne_nil _ _
    have hfence : fenceSearch (("```json\n" ++ s ++ "\n```").toList) =
        some s.toList := by
      rw [hT, hsl]
      exact fenceSearch_fenced tail htne htlast htbt
    simp only [extractJson, if_neg hT0, hfence, hclean]
    exact hp

/-- Witness for the amended C3 at a concrete backtick-free object. -/
theorem extract_json_plain_eq_fenced_witness :
    extractJson "\x7b\"a\": 1\x7d" = some (Json.obj [("a", Json.num 1)]) ∧
    extractJson ("```json\n" ++ "\x7b\"a\": 1\x7d" ++ "\n```") =
      some (Json.obj [("a", Json.num 1)]) :=
  extract_json_plain_eq_fenced "\x7b\"a\": 1\x7d" (Json.obj [("a", Json.num 1)])
    rfl rfl rfl (by decide) (by decide)

/-- **C3 counterexample**. The claim as stated fails: for the JSON
object whose serialization is `\x7b"a": "\x7d ```"\x7d`, the plain call
succeeds and returns the object, but on the fenced version the lazy
group of the regex closes at the `\x7d` inside the string (whose
continuation ` ``` ` completes the pattern), so the captured group is
not valid JSON and the call returns null instead of the same object. -/
theorem extract_json_fence_mismatch_cx :
    extractJson "\x7b\"a\": \"\x7d ```\"\x7d" =
      some (Json.obj [("a", Json.str "\x7d ```")]) ∧
    extractJson ("```json\n" ++ "\x7b\"a\": \"\x7d ```\"\x7d" ++ "\n```") =
      none := by
  constructor
  · rfl
  · rfl
